import Mathlib

/-!
Verification of the httpc middleware-composition library.

This file gives a shallow embedding of the core of the `httpc` Go package
(`httpc.go` and `middlewares.go`): the executor abstraction (`Doer` /
`DoerFunc`), middleware chain composition (`applyMiddlewares`), the two
wrappers (`Client`, `RoundTripper`) with their derivation operation (`With`),
and the built-in middlewares (`Recover`, `StripSlashes`, `Secure`, `Timeout`,
`SetHeader`, `AuthorizationBearer`), together with theorems about them.

Modelling conventions:
* A Go `(resp, err)` pair, plus the possibility of a panic unwinding through
  the call, is modelled by the three-way `Outcome` type.  A panic payload is
  modelled as a `String`.
* `http.Header` is modelled as an association list from keys to value lists;
  `Header.Set` is the overwrite operation.  MIME key canonicalization is not
  modelled (all claims use a fixed literal key).
* `context.Context` is modelled by its deadline and cancellation state, with
  absolute instants as integers (nanoseconds, like `time.Duration`).
* Stdlib collaborators used by the middlewares (`url.URL.JoinPath`,
  `path.Clean`, `context.WithTimeout`, `debug.Stack`) are modelled explicitly
  next to their use sites.
-/

/-- Model of a `context.Context` error kind: `context.Canceled` or
`context.DeadlineExceeded`. -/
inductive CtxErr where
  | canceled
  | deadlineExceeded
deriving DecidableEq

/-- Model of a `context.Context` (stdlib collaborator): the state that the
claims observe is the absolute deadline instant, if any, and the instant at
which `cancel` was first invoked, if any.  Instants are integers
(nanoseconds). -/
structure Context where
  deadline : Option Int := none
  canceledAt : Option Int := none
deriving DecidableEq

/-- Minimum of two optional instants (`none` meaning "never"). -/
def optMin : Option Int → Option Int → Option Int
  | none, b => b
  | a, none => a
  | some a, some b => some (min a b)

/-- The instant at which the context becomes done: the earlier of its
deadline and its cancellation, if either exists. -/
def Context.doneAt (c : Context) : Option Int :=
  optMin c.deadline c.canceledAt

/-- The error a done context reports (`ctx.Err()`):
`context.DeadlineExceeded` when the deadline fired no later than any explicit
cancel, `context.Canceled` otherwise. -/
def Context.cause (c : Context) : CtxErr :=
  match c.deadline, c.canceledAt with
  | some d, some t => if d ≤ t then .deadlineExceeded else .canceled
  | some _, none => .deadlineExceeded
  | none, _ => .canceled

/-- Model of `context.WithTimeout(parent, d)` called at instant `now`: the
child context carries a deadline of `now + d`, capped by any parent
deadline. -/
def Context.withTimeout (now d : Int) (c : Context) : Context :=
  { c with deadline := some (match c.deadline with
      | none => now + d
      | some p => min p (now + d)) }

/-- Model of invoking the `cancel` function of a cancellable context at
instant `t` (a no-op if the context was already cancelled earlier). -/
def Context.cancel (t : Int) (c : Context) : Context :=
  { c with canceledAt := some (match c.canceledAt with
      | none => t
      | some u => min u t) }

/-- Model of `url.URL`: the components the middlewares read or write.
`path` holds the (escaped) path string. -/
structure URL where
  scheme : String
  host : String
  path : String
  rawQuery : String
  fragment : String
deriving DecidableEq

/-- Model of `http.Header`: an association list from header keys to their
value lists (Go: `map[string][]string`). -/
def Headers := List (String × List String)

instance : DecidableEq Headers := by
  unfold Headers
  infer_instance

/-- Model of `http.Header.Set(k, v)`: replace the values stored under `k`
with the single-element list `[v]` (overwrite, not append). -/
def Headers.set (h : Headers) (k v : String) : Headers :=
  (k, [v]) :: h.filter (fun p => p.1 ≠ k)

/-- Look up the values stored under a key. -/
def Headers.get (h : Headers) (k : String) : Option (List String) :=
  (h.find? (fun p => p.1 = k)).map (fun p => p.2)

/-- Model of `http.Request`: the fields the middlewares touch, plus the
attached context (`r.Context()`). -/
structure Request where
  method : String
  url : URL
  header : Headers
  ctx : Context
deriving DecidableEq

/-- Model of `http.Response`: the status code (body handling is modelled
separately, in the timed semantics, where it matters). -/
structure Response where
  statusCode : Nat
deriving DecidableEq

/-- Model of `httpc.PanicError`: the recovered panic payload and the captured
stack trace. -/
structure PanicError where
  Recovered : String
  Stack : String
deriving DecidableEq

/-- Model of the Go `error` values that can flow out of the chain: the
`*PanicError` type, the two package sentinels, context errors, and uninterpreted
base-executor errors. -/
inductive Err where
  | panicErr (e : PanicError)
  | insecureScheme
  | ctxErr (e : CtxErr)
  | other (msg : String)
deriving DecidableEq

/-- The sentinel error values the package compares against with
`errors.Is`. -/
inductive Sentinel where
  | panicRecovered
  | insecureScheme
  | canceled
  | deadlineExceeded
deriving DecidableEq

/-- Model of `errors.Is err sentinel` for the errors of this package.
`PanicError.Is` matches `ErrPanicRecovered` (middlewares.go lines 35-38);
the sentinels match themselves by identity. -/
def Err.is : Err → Sentinel → Bool
  | .panicErr _, .panicRecovered => true
  | .insecureScheme, .insecureScheme => true
  | .ctxErr .canceled, .canceled => true
  | .ctxErr .deadlineExceeded, .deadlineExceeded => true
  | _, _ => false

/-- Result of running an executor: a response, an error, or a panic
unwinding out of the call (Go `(resp, err)` with panics made explicit). -/
inductive Outcome where
  | ok (resp : Response)
  | fail (e : Err)
  | panicked (v : String)
deriving DecidableEq

/-- Model of `httpc.DoerFunc` (and of the `Doer` / `http.RoundTripper`
capabilities, which it implements): a function from a request to an
outcome. -/
def DoerFunc := Request → Outcome

/-- Model of `httpc.MiddlewareFunc`: a transform of one executor into
another.  A Go `MiddlewareFunc` value may be `nil`, which is modelled as
`Option MiddlewareFunc` at every use site. -/
def MiddlewareFunc := DoerFunc → DoerFunc

/-- Model of `httpc.applyMiddlewares` (httpc.go lines 187-198): starting from
the base `doer`, traverse the middleware list in reverse, skipping `nil`
(`none`) entries, and wrap the accumulated chain with each middleware.  The
definition is generic in the executor type `D` so that the same fold can be
instantiated with observation-carrying executors; the Go source instantiates
`D := DoerFunc`. -/
def applyMiddlewares {D : Type} (doer : D) (mws : List (Option (D → D))) : D :=
  mws.foldr (fun mw chain => match mw with
    | none => chain
    | some f => f chain) doer

/-- Model of `httpc.Client` (httpc.go lines 143-147): base executor,
precomputed chain, and the middleware sequence.  The `Doer` interface is
represented by its `Do` method. -/
structure Client where
  base : DoerFunc
  chain : DoerFunc
  middlewares : List (Option MiddlewareFunc)

/-- Model of `httpc.NewClient` (httpc.go lines 155-161). -/
def NewClient (doer : DoerFunc) (mws : List (Option MiddlewareFunc)) : Client :=
  { base := doer
    chain := applyMiddlewares doer mws
    middlewares := mws }

/-- Model of `Client.Do` (httpc.go lines 168-170). -/
def Client.Do (c : Client) (r : Request) : Outcome :=
  c.chain r

/-- Model of `Client.With` (httpc.go lines 178-180). -/
def Client.With (c : Client) (mws : List (Option MiddlewareFunc)) : Client :=
  NewClient c.base (c.middlewares ++ mws)

/-- Model of `httpc.RoundTripper` (httpc.go lines 101-105): the
`http.RoundTripper` base is represented by its `RoundTrip` method. -/
structure RoundTripper where
  base : DoerFunc
  chain : DoerFunc
  middlewares : List (Option MiddlewareFunc)

/-- Model of `httpc.NewRoundTripper` (httpc.go lines 108-114). -/
def NewRoundTripper (rt : DoerFunc) (mws : List (Option MiddlewareFunc)) :
    RoundTripper :=
  { base := rt
    chain := applyMiddlewares rt mws
    middlewares := mws }

/-- Model of `RoundTripper.RoundTrip` (httpc.go lines 117-119). -/
def RoundTripper.RoundTrip (t : RoundTripper) (r : Request) : Outcome :=
  t.chain r

/-- Model of `RoundTripper.With` (httpc.go lines 127-129). -/
def RoundTripper.With (t : RoundTripper) (mws : List (Option MiddlewareFunc)) :
    RoundTripper :=
  NewRoundTripper t.base (t.middlewares ++ mws)

/-! ### Observation instrumentation for composition order

To state what "executes in list order" means observably, we instantiate
`applyMiddlewares` at an executor type that records a trace of events, the
way the spec's recording-base-executor test does. -/

/-- An execution event: middleware number `i` running its before-forward
logic, the base executor running, or middleware number `i` running its
after-forward logic. -/
inductive Event where
  | before (i : Nat)
  | base
  | after (i : Nat)
deriving DecidableEq

/-- A traced executor returns the list of events of the call together with
the outcome. -/
def TracedDoer := Request → List Event × Outcome

/-- The recording middleware number `i`: it logs its before-forward event,
forwards to the next executor, and logs its after-forward event on the way
out. -/
def recMw (i : Nat) : TracedDoer → TracedDoer := fun next r =>
  let (t, out) := next r
  (Event.before i :: t ++ [Event.after i], out)

/-- A recording base executor with a fixed outcome. -/
def recBase (out : Outcome) : TracedDoer := fun _ =>
  ([Event.base], out)

/-! ### Built-in middlewares: Recover, Secure, SetHeader, AuthorizationBearer -/

/-- Model of `runtime/debug.Stack()` (stdlib collaborator): a non-empty
captured stack trace. -/
def debugStack : String := "goroutine 1 [running]"

/-- Model of `httpc.Recover()` (middlewares.go lines 42-57): if the wrapped
call panics, the panic is recovered and converted into a `PanicError`
carrying the payload and the captured stack; any normal return (response or
error) passes through unchanged. -/
def Recover : MiddlewareFunc := fun next r =>
  match next r with
  | .panicked v => .fail (.panicErr { Recovered := v, Stack := debugStack })
  | out => out

/-- Model of `httpc.Secure()` (middlewares.go lines 80-90): requests whose
URL scheme is not `https` fail with `ErrInsecureScheme` before the wrapped
executor is reached; `https` requests are forwarded unchanged. -/
def Secure : MiddlewareFunc := fun next r =>
  if r.url.scheme ≠ "https" then .fail .insecureScheme
  else next r

/-- The middleware installed by `SetHeader` for a non-empty key
(middlewares.go lines 180-185): overwrite header `k` with `v` on the
outgoing request and forward. -/
def setHeaderMw (k v : String) : MiddlewareFunc := fun next r =>
  next { r with header := r.header.set k v }

/-- Model of `httpc.SetHeader` (middlewares.go lines 175-186): an empty key
yields the absent (`nil`) middleware; otherwise the header-overwriting
middleware is installed, even for an empty value. -/
def SetHeader (k v : String) : Option MiddlewareFunc :=
  if k = "" then none
  else some (setHeaderMw k v)

/-- Model of `httpc.AuthorizationBearer` (middlewares.go lines 150-156): an
empty token yields the absent middleware; otherwise the Authorization header
is set to the bearer form. -/
def AuthorizationBearer (v : String) : Option MiddlewareFunc :=
  if v = "" then none
  else SetHeader "Authorization" ("Bearer " ++ v)

/-- A fixed concrete request used by witness theorems. -/
def sampleReq : Request :=
  { method := "GET"
    url := { scheme := "https", host := "example.com", path := "/",
             rawQuery := "", fragment := "" }
    header := []
    ctx := {} }

/-! ### Mutation-tracking semantics and the Timeout constructor

To make frame effects on the caller's request object observable, this
semantics separates the two pieces of state behind a `*http.Request`: the
per-object struct fields (method, URL, attached context), which
`Request.WithContext` copies into a fresh struct, and the header map, which
the shallow copy *shares* with the original.  Every executor receives the
contents of the request struct it is handed together with the current
contents of the shared header map, and returns the outcome, the final
contents of that struct, and the final contents of the shared map.
`Timeout` forwards a fresh copy of the struct, so the caller's struct comes
back unchanged, but header mutations made by the inner chain flow back
through the shared map. -/

/-- The per-object fields of an `http.Request` struct: everything except the
shared header map.  `WithContext` copies these fields into a fresh struct;
the header map is aliased between the copy and the original. -/
structure RequestCore where
  method : String
  url : URL
  ctx : Context
deriving DecidableEq

/-- An executor in the mutation-tracking semantics: outcome, final contents
of the request struct the caller handed in, and final contents of the shared
header map. -/
def DoerM := RequestCore → Headers → Outcome × RequestCore × Headers

/-- The middleware installed by `Timeout` for a positive duration
(middlewares.go lines 100-108), in the mutation-tracking semantics, with the
per-request clock `now` (the instant `context.WithTimeout` samples) made
explicit: derive the timeout context from the request's context, attach it
to a shallow copy of the request (`r = r.WithContext(ctx)` rebinds only the
local variable) and forward the copy.  The caller's struct is never written
— the inner chain holds only the copy — but the header map is shared with
the copy, so the inner chain's header mutations are returned as the caller's
final header map.  The `defer cancel()` of the source acts on the derived
context only and is modelled in the timed semantics below. -/
def timeoutMw (d now : Int) : DoerM → DoerM := fun next core h =>
  let ctx := Context.withTimeout now d core.ctx
  let inner := next { core with ctx := ctx } h
  (inner.1, core, inner.2.2)

/-- Model of `httpc.Timeout` (middlewares.go lines 95-109): a duration less
than or equal to zero yields the absent (`nil`) middleware; otherwise the
timeout middleware, awaiting its per-request clock, is installed. -/
def Timeout (d : Int) : Option (Int → DoerM → DoerM) :=
  if d ≤ 0 then none
  else some (timeoutMw d)

/-- A response in the timed semantics: status code plus the absolute instant
at which the body's data becomes available to a reader (the body blocks
until then; the repo's `delayedReader` test double). -/
structure TimedResponse where
  statusCode : Nat
  bodyReadyAt : Int
deriving DecidableEq

/-- Modelled from the spec (sections 4.6, 8.7) and `net/http` behavior:
reading the response body against the attached context.  The read succeeds
once the data is ready, unless the context becomes done strictly before that
instant, in which case the read fails with the context's error. -/
def readBody (c : Context) (resp : TimedResponse) : Except CtxErr Unit :=
  match c.doneAt with
  | some t => if t < resp.bodyReadyAt then .error c.cause else .ok ()
  | none => .ok ()

/-- Timed run of the executor produced by `Timeout(d)` (for `d > 0`,
middlewares.go lines 100-108) around a base executor that returns normally.
At instant `now` the middleware derives the timeout context from the parent
context and forwards it; the base returns its response together with its
return instant; when the middleware then returns, its deferred `cancel()`
cancels the derived context.  The result is the response, the return
instant, and the post-return state of the derived context — the context
that later body reads observe. -/
def timeoutChainRun (d now : Int) (base : Context → TimedResponse × Int)
    (parent : Context) : TimedResponse × Int × Context :=
  let ctx := Context.withTimeout now d parent
  let (resp, ret) := base ctx
  (resp, ret, ctx.cancel ret)

/-- A base executor that returns immediately (at instant 0) with a response
whose body becomes readable only at instant `readyAt` — the shape of the
repo's `TestTimeout` delayed-body cases. -/
def delayedBodyBase (readyAt : Int) : Context → TimedResponse × Int :=
  fun _ => ({ statusCode := 200, bodyReadyAt := readyAt }, 0)

/-! ### Path normalization: StripSlashes

`StripSlashes` calls `r.URL.JoinPath()` with no elements (middlewares.go
line 66), so the path is processed by `path.Clean` with `JoinPath`'s
trailing-slash retention.  The models below work on the path's character
list; segments are the `/`-separated pieces. -/

/-- Split a character list into its `/`-separated segments, keeping empty
segments (the segment structure `path.Clean` works on). -/
def splitSlash : List Char → List (List Char)
  | [] => [[]]
  | c :: cs =>
    if c = '/' then [] :: splitSlash cs
    else match splitSlash cs with
      | [] => [[c]]
      | s :: rest => (c :: s) :: rest

/-- Join segments back with single `/` separators. -/
def joinSlash : List (List Char) → List Char
  | [] => []
  | [s] => s
  | s :: rest => s ++ '/' :: joinSlash rest

/-- One step of `path.Clean`'s element processing (stdlib `path` package):
empty and `.` segments are dropped; `..` pops the previous element, except
that in a rooted path it is discarded at the root, and in an unrooted path
it accumulates at the front. -/
def cleanStep (rooted : Bool) (acc : List (List Char)) (s : List Char) :
    List (List Char) :=
  if s = [] ∨ s = ['.'] then acc
  else if s = ['.', '.'] then
    if rooted then acc.dropLast
    else if acc = [] ∨ acc.getLast? = some ['.', '.'] then acc ++ [s]
    else acc.dropLast
  else acc ++ [s]

/-- Model of `path.Clean` (stdlib collaborator of `url.URL.JoinPath`) on a
character list: process the segments left to right and reassemble, with the
usual empty-result conventions (`.` for an empty relative result, `/` for an
empty rooted one). -/
def pathCleanList (l : List Char) : List Char :=
  if l = [] then ['.']
  else if l.head? = some '/' then
    let segs := (splitSlash l).foldl (cleanStep true) []
    if segs = [] then ['/'] else '/' :: joinSlash segs
  else
    let segs := (splitSlash l).foldl (cleanStep false) []
    if segs = [] then ['.'] else joinSlash segs

/-- Model of `url.URL.JoinPath()` with no extra elements — the only form the
source uses — on a character list: the existing path is cleaned of `./`,
`../` and duplicate `/` elements by `path.Clean`, a trailing slash is
retained when the original path had one and the result is not the root, and
an empty path stays empty. -/
def joinPath0List (l : List Char) : List Char :=
  if l = [] then []
  else
    let c := pathCleanList l
    if c ≠ ['/'] ∧ l.getLast? = some '/' then c ++ ['/'] else c

/-- Model of `url.URL.JoinPath()` at the string level. -/
def joinPath0 (s : String) : String := ⟨joinPath0List s.data⟩

/-- Model of `url.URL.JoinPath()` at the URL level: only the path
changes. -/
def URL.joinPath (u : URL) : URL := { u with path := joinPath0 u.path }

/-- Model of `httpc.StripSlashes` (middlewares.go lines 63-75): replace the
request URL by `r.URL.JoinPath()`; when `stripTrailing` is set and the
resulting path is longer than one character and ends with a slash
(`strings.HasSuffix(p, "/")`, i.e. its last character is a slash), trim one
trailing slash (`strings.TrimSuffix`); then forward. -/
def StripSlashes (stripTrailing : Bool) : MiddlewareFunc := fun next r =>
  let url := r.url.joinPath
  let url :=
    if stripTrailing ∧ url.path.length > 1 ∧ url.path.data.getLast? = some '/'
    then { url with path := ⟨url.path.data.dropLast⟩ }
    else url
  next { r with url := url }

/-- Specification-side path transform, following C7's wording: collapse
every run of consecutive `/` characters into a single `/`.  The flag records
whether the previously emitted character was a `/`. -/
def collapseAux (prevSlash : Bool) : List Char → List Char
  | [] => []
  | c :: cs =>
    if c = '/' then
      if prevSlash then collapseAux true cs
      else '/' :: collapseAux true cs
    else c :: collapseAux false cs

/-- Specification-side collapse at the string level. -/
def collapseSlashes (s : String) : String := ⟨collapseAux false s.data⟩

/-- Render a segment list the way the collapse transform does when a slash
was just emitted: an empty segment at a boundary is skipped. -/
def renderT : List (List Char) → List Char
  | [] => []
  | [s] => s
  | s :: rest => if s = [] then renderT rest else s ++ '/' :: renderT rest

/-- Render a segment list the way the collapse transform does at the start
of the string. -/
def renderF : List (List Char) → List Char
  | [] => []
  | [s] => s
  | s :: rest => s ++ '/' :: renderT rest

/-- A probe executor that reports the path it was handed, used to observe
what a middleware forwards. -/
def probeDoer : DoerFunc := fun r => .fail (.other r.url.path)

/-! ### Theorems -/

/-- Helper: the trace of the chain built from recording middlewares numbered
by `l` is the before-events of `l` in order, then the base event, then the
after-events of `l` in reverse order. -/
theorem recorded_trace (l : List Nat) (out : Outcome) (r : Request) :
    applyMiddlewares (recBase out) (l.map (fun i => some (recMw i))) r =
      (l.map Event.before ++ [Event.base] ++ (l.reverse.map Event.after), out) := by
  induction l with
  | nil => rfl
  | cons i l ih =>
      simp only [List.map_cons, applyMiddlewares, List.foldr_cons, recMw]
      have hih := ih
      simp only [applyMiddlewares] at hih
      rw [hih]
      simp [List.map_append]

/-- C1: For every base executor and every list of middlewares, the composed
executor runs the middlewares in list order on the way in, with the first
middleware outermost and the base innermost, and the after-forward logic in
reverse (LIFO) order.  Stated in two parts: (a) structurally, composing a
list of (non-nil) middlewares nests them with the first in the list
outermost around the base; (b) observationally, the chain built from
recording middlewares numbered `0..` by `l` produces the trace
`before`s of `l` in list order, then `base`, then `after`s of `l`
reversed. -/
theorem composition_order
    (mws : List MiddlewareFunc) (base : DoerFunc)
    (l : List Nat) (out : Outcome) (r : Request) :
    applyMiddlewares base (mws.map some) =
      mws.foldr (fun m acc => m acc) base ∧
    applyMiddlewares (recBase out) (l.map (fun i => some (recMw i))) r =
      (l.map Event.before ++ [Event.base] ++ (l.reverse.map Event.after), out) := by
  constructor
  · induction mws with
    | nil => rfl
    | cons m mws ih =>
        simp only [List.map_cons, applyMiddlewares, List.foldr_cons]
        simp only [applyMiddlewares] at ih
        rw [ih]
  · exact recorded_trace l out r

/-- C9: composing a base executor with the empty middleware list yields
exactly the base executor, with no behavior change for any request. -/
theorem empty_chain_is_base (base : DoerFunc) :
    applyMiddlewares base ([] : List (Option MiddlewareFunc)) = base ∧
    ∀ r : Request, applyMiddlewares base ([] : List (Option MiddlewareFunc)) r = base r := by
  exact ⟨rfl, fun _ => rfl⟩

/-- C2: `With` derives a new wrapper from the same base and the concatenated
middleware sequence, for both wrapper flavors, and the parent wrapper is
unaffected: its fields still satisfy the construction invariant and its
`execute` behaves exactly as before derivation. -/
theorem with_derivation
    (b : DoerFunc) (mws ns : List (Option MiddlewareFunc)) :
    ((NewClient b mws).With ns = NewClient b (mws ++ ns) ∧
      ((NewClient b mws).With ns).base = b ∧
      ((NewClient b mws).With ns).middlewares = mws ++ ns ∧
      ((NewClient b mws).With ns).chain = applyMiddlewares b (mws ++ ns)) ∧
    ((NewRoundTripper b mws).With ns = NewRoundTripper b (mws ++ ns) ∧
      ((NewRoundTripper b mws).With ns).base = b ∧
      ((NewRoundTripper b mws).With ns).middlewares = mws ++ ns ∧
      ((NewRoundTripper b mws).With ns).chain = applyMiddlewares b (mws ++ ns)) ∧
    ((NewClient b mws).base = b ∧
      (NewClient b mws).middlewares = mws ∧
      (NewClient b mws).chain = applyMiddlewares b mws ∧
      ∀ r, (NewClient b mws).Do r = applyMiddlewares b mws r) ∧
    ((NewRoundTripper b mws).base = b ∧
      (NewRoundTripper b mws).middlewares = mws ∧
      (NewRoundTripper b mws).chain = applyMiddlewares b mws ∧
      ∀ r, (NewRoundTripper b mws).RoundTrip r = applyMiddlewares b mws r) := by
  refine ⟨⟨rfl, rfl, rfl, rfl⟩, ⟨rfl, rfl, rfl, rfl⟩,
    ⟨rfl, rfl, rfl, fun _ => rfl⟩, ⟨rfl, rfl, rfl, fun _ => rfl⟩⟩

/-- C5: the `Recover` middleware converts a panic of the wrapped executor
with payload `v` into an error that matches the `ErrPanicRecovered` sentinel,
carries `v` in its `Recovered` field and a non-empty stack in its `Stack`
field; a normal error from the wrapped executor is returned unmodified, and
so is a normal response. -/
theorem recover_isolates_panics (next : DoerFunc) (r : Request) :
    (∀ v, next r = .panicked v →
      Recover next r = .fail (.panicErr { Recovered := v, Stack := debugStack }) ∧
      (Err.panicErr { Recovered := v, Stack := debugStack }).is .panicRecovered = true ∧
      debugStack ≠ "") ∧
    (∀ e, next r = .fail e → Recover next r = .fail e) ∧
    (∀ resp, next r = .ok resp → Recover next r = .ok resp) := by
  refine ⟨fun v hv => ?_, fun e he => ?_, fun resp hr => ?_⟩
  · refine ⟨?_, rfl, by decide⟩
    simp only [Recover, hv]
  · simp only [Recover, he]
  · simp only [Recover, hr]

/-- Witness for C5 at concrete executors: a base that panics with "boom" and
a base that fails with an uninterpreted error. -/
theorem recover_isolates_panics_witness :
    Recover (fun _ => .panicked "boom") sampleReq =
      .fail (.panicErr { Recovered := "boom", Stack := debugStack }) ∧
    Recover (fun _ => .fail (.other "net down")) sampleReq =
      .fail (.other "net down") := by
  exact ⟨((recover_isolates_panics (fun _ => .panicked "boom") sampleReq).1 "boom" rfl).1,
    (recover_isolates_panics (fun _ => .fail (.other "net down")) sampleReq).2.1
      (.other "net down") rfl⟩

/-- C6: the `Secure` middleware fails a request whose URL scheme is not
`https` with the `ErrInsecureScheme` sentinel, with a result independent of
the wrapped executor (so the wrapped executor is never invoked); an `https`
request is forwarded to the wrapped executor unchanged. -/
theorem secure_enforces_scheme (r : Request) :
    (r.url.scheme ≠ "https" →
      ∀ next : DoerFunc, Secure next r = .fail .insecureScheme ∧
        (Err.insecureScheme).is .insecureScheme = true) ∧
    (r.url.scheme = "https" → ∀ next : DoerFunc, Secure next r = next r) := by
  refine ⟨fun h next => ⟨?_, rfl⟩, fun h next => ?_⟩
  · simp only [Secure, if_pos h]
  · simp only [Secure, h]
    simp

/-- Witness for C6: an `http` request is rejected whatever the base does, and
an `https` request reaches the base. -/
theorem secure_enforces_scheme_witness :
    (Secure (fun _ => .ok { statusCode := 200 })
        { sampleReq with url := { sampleReq.url with scheme := "http" } } =
      .fail .insecureScheme) ∧
    Secure (fun _ => .ok { statusCode := 200 }) sampleReq =
      .ok { statusCode := 200 } := by
  exact ⟨((secure_enforces_scheme
      { sampleReq with url := { sampleReq.url with scheme := "http" } }).1
      (by decide) (fun _ => .ok { statusCode := 200 })).1,
    (secure_enforces_scheme sampleReq).2 rfl (fun _ => .ok { statusCode := 200 })⟩

/-- C8: `SetHeader` with an empty key yields the absent middleware for every
value; with a non-empty key the middleware is installed even for an empty
value, and on each request it overwrites (does not append to) header `k`
with exactly the single value `v`. -/
theorem setHeader_asymmetry (k v : String) :
    (k = "" → SetHeader k v = none) ∧
    (k ≠ "" →
      SetHeader k v = some (setHeaderMw k v) ∧
      ∀ (next : DoerFunc) (r : Request),
        setHeaderMw k v next r = next { r with header := r.header.set k v } ∧
        (r.header.set k v).get k = some [v]) := by
  refine ⟨fun h => ?_, fun h => ⟨?_, fun next r => ⟨rfl, ?_⟩⟩⟩
  · simp only [SetHeader, if_pos h]
  · simp only [SetHeader, if_neg h]
  · simp only [Headers.set, Headers.get, List.find?]
    simp

/-- Witness for C8: empty key with non-empty value installs nothing; a
non-empty key with empty value is installed and overwrites an existing
multi-valued header with the single empty value. -/
theorem setHeader_asymmetry_witness :
    SetHeader "" "bar" = none ∧
    SetHeader "X-Foo" "" = some (setHeaderMw "X-Foo" "") ∧
    (Headers.set [("X-Foo", ["a", "b"])] "X-Foo" "").get "X-Foo" = some [""] := by
  refine ⟨(setHeader_asymmetry "" "bar").1 rfl, ?_, ?_⟩
  · exact ((setHeader_asymmetry "X-Foo" "").2 (by decide)).1
  · exact (((setHeader_asymmetry "X-Foo" "").2 (by decide)).2
      (fun _ => .ok { statusCode := 200 })
      { sampleReq with header := [("X-Foo", ["a", "b"])] }).2

/-- Helper shared by the elision results: an absent middleware entry is
skipped entirely by composition, leaving the rest of the chain as if the
entry were never in the list. -/
theorem applyMiddlewares_elide_none {D : Type} (doer : D)
    (l1 l2 : List (Option (D → D))) :
    applyMiddlewares doer (l1 ++ none :: l2) = applyMiddlewares doer (l1 ++ l2) := by
  simp [applyMiddlewares, List.foldr_append]

/-- C4: every vacuous middleware configuration (`SetHeader` with empty key,
`Timeout` with non-positive duration, `AuthorizationBearer` with empty
token) yields the absent middleware rather than an error, and composition
elides absent entries: a chain containing such an entry equals the same
chain without it, the relative order of the rest unchanged. -/
theorem vacuous_config_elided (v : String) (d : Int) (hd : d ≤ 0) :
    SetHeader "" v = none ∧
    Timeout d = none ∧
    AuthorizationBearer "" = none ∧
    (∀ (doer : DoerFunc) (l1 l2 : List (Option MiddlewareFunc)),
      applyMiddlewares doer (l1 ++ none :: l2) = applyMiddlewares doer (l1 ++ l2)) := by
  refine ⟨rfl, ?_, rfl, fun doer l1 l2 => applyMiddlewares_elide_none doer l1 l2⟩
  simp only [Timeout, if_pos hd]

/-- Witness for C4 at concrete inputs: `SetHeader "" "bar"`, `Timeout 0`, an
empty bearer token, and the elision of an absent entry between `Recover` and
`Secure`. -/
theorem vacuous_config_elided_witness :
    SetHeader "" "bar" = none ∧
    Timeout 0 = none ∧
    AuthorizationBearer "" = none ∧
    applyMiddlewares (fun _ => .ok { statusCode := 200 } : DoerFunc)
        ([some Recover] ++ none :: [some Secure]) =
      applyMiddlewares (fun _ => .ok { statusCode := 200 } : DoerFunc)
        ([some Recover] ++ [some Secure]) := by
  obtain ⟨h1, h2, h3, h4⟩ := vacuous_config_elided "bar" 0 (by decide)
  exact ⟨h1, h2, h3, h4 _ [some Recover] [some Secure]⟩

/-- C3 (code evaluated at the failing input): with `Timeout 10` around a
base executor that returns immediately, the deferred `cancel()` leaves the
attached context cancelled at instant 0, so a body read that would complete
at instant 15 — after the deadline of 10, where the claim and the repo's own
`TestTimeout` expect a deadline-exceeded failure — instead fails with the
cancellation error, and so does a read that would complete at instant 3,
well within the deadline, where the claim expects success. -/
theorem timeout_body_read_sees_cancel :
    (timeoutChainRun 10 0 (delayedBodyBase 15) {}).2.2 =
      { deadline := some 10, canceledAt := some 0 } ∧
    readBody (timeoutChainRun 10 0 (delayedBodyBase 15) {}).2.2
      (timeoutChainRun 10 0 (delayedBodyBase 15) {}).1 =
      .error .canceled ∧
    readBody (timeoutChainRun 10 0 (delayedBodyBase 3) {}).2.2
      (timeoutChainRun 10 0 (delayedBodyBase 3) {}).1 =
      .error .canceled ∧
    CtxErr.canceled ≠ CtxErr.deadlineExceeded := by
  refine ⟨by decide, rfl, rfl, by decide⟩

example : pathCleanList "a/c".data = "a/c".data := by decide

example : pathCleanList "a//c".data = "a/c".data := by decide

example : pathCleanList "a/c/.".data = "a/c".data := by decide

example : pathCleanList "a/c/b/..".data = "a/c".data := by decide

example : pathCleanList "/../a/c".data = "/a/c".data := by decide

example : pathCleanList "/../a/b/../././/c".data = "/a/c".data := by decide

example : pathCleanList "".data = ".".data := by decide

example : pathCleanList "..".data = "..".data := by decide

example : joinPath0 "///v1//foo/" = "/v1/foo/" := by decide

example : joinPath0 "/" = "/" := by decide

example : joinPath0 "///v1//foo///" = "/v1/foo/" := by decide

example : joinPath0 "/v1/foo" = "/v1/foo" := by decide

example : joinPath0 "/v1/foo&q=foo" = "/v1/foo&q=foo" := by decide

example : collapseSlashes "///v1//foo/" = "/v1/foo/" := by decide

example : collapseSlashes "/v1/foo" = "/v1/foo" := by decide

example : collapseSlashes "" = "" := by decide

theorem renderT_cons2 (s t : List Char) (rest : List (List Char)) :
    renderT (s :: t :: rest) =
      if s = [] then renderT (t :: rest) else s ++ '/' :: renderT (t :: rest) := by
  rfl

theorem renderF_cons2 (s t : List Char) (rest : List (List Char)) :
    renderF (s :: t :: rest) = s ++ '/' :: renderT (t :: rest) := by
  rfl

theorem splitSlash_ne_nil (l : List Char) : splitSlash l ≠ [] := by
  cases l with
  | nil => simp [splitSlash]
  | cons c cs =>
      unfold splitSlash
      by_cases h : c = '/'
      · simp [h]
      · simp only [if_neg h]
        cases hs : splitSlash cs <;> simp

/-- Bridge between the character-level collapse transform and the segment
renderers. -/
theorem collapse_eq_render (l : List Char) :
    collapseAux false l = renderF (splitSlash l) ∧
    collapseAux true l = renderT (splitSlash l) := by
  induction l with
  | nil => exact ⟨rfl, rfl⟩
  | cons c cs ih =>
      obtain ⟨ihF, ihT⟩ := ih
      obtain ⟨s0, rest, hS⟩ : ∃ s0 rest, splitSlash cs = s0 :: rest := by
        cases h : splitSlash cs with
        | nil => exact absurd h (splitSlash_ne_nil cs)
        | cons a b => exact ⟨a, b, rfl⟩
      by_cases hc : c = '/'
      · subst hc
        have hsplit : splitSlash ('/' :: cs) = [] :: splitSlash cs := by
          simp [splitSlash]
        constructor
        · rw [hsplit, hS, renderF_cons2]
          simp [collapseAux, ihT, hS]
        · rw [hsplit, hS, renderT_cons2]
          simp [collapseAux, ihT, hS]
      · have hsplit : splitSlash (c :: cs) = (c :: s0) :: rest := by
          simp only [splitSlash, if_neg hc, hS]
        have hF : collapseAux false (c :: cs) = c :: collapseAux false cs := by
          simp only [collapseAux, if_neg hc]
        have hT : collapseAux true (c :: cs) = c :: collapseAux false cs := by
          simp only [collapseAux, if_neg hc]
        cases rest with
        | nil =>
            constructor
            · rw [hF, hsplit, ihF, hS]
              rfl
            · rw [hT, hsplit, ihF, hS]
              rfl
        | cons t rs =>
            constructor
            · rw [hF, hsplit, ihF, hS, renderF_cons2, renderF_cons2]
              simp
            · rw [hT, hsplit, ihF, hS, renderT_cons2,
                if_neg (by simp : ¬ (c :: s0 = [])), renderF_cons2]
              simp

theorem joinSlash_cons2 (s x : List Char) (xs : List (List Char)) :
    joinSlash (s :: x :: xs) = s ++ '/' :: joinSlash (x :: xs) := by
  rfl

/-- Closed form of `renderT`: join the non-empty segments and re-add a
trailing slash when the last segment is empty and something non-empty was
emitted. -/
theorem renderT_formula (S : List (List Char)) :
    renderT S = joinSlash (S.filter (fun s => s ≠ [])) ++
      (if S.getLast? = some [] ∧ S.filter (fun s => s ≠ []) ≠ []
       then ['/'] else []) := by
  induction S with
  | nil => simp [renderT, joinSlash]
  | cons s rest ih =>
      cases rest with
      | nil =>
          by_cases hs : s = []
          · subst hs
            simp [renderT, joinSlash]
          · simp [renderT, joinSlash, hs]
      | cons t rs =>
          rw [renderT_cons2]
          by_cases hs : s = []
          · subst hs
            rw [if_pos rfl, ih]
            simp [List.getLast?_cons_cons]
          · rw [if_neg hs, ih]
            have hfilter : (s :: t :: rs).filter (fun s => s ≠ []) =
                s :: (t :: rs).filter (fun s => s ≠ []) := by
              simp [List.filter_cons, hs]
            by_cases hf : (t :: rs).filter (fun s => s ≠ []) = []
            · have hall : ∀ a ∈ t :: rs, a = [] := by
                intro a ha
                have := List.filter_eq_nil_iff.mp hf a ha
                simpa using this
              have hlast : (t :: rs).getLast? = some [] := by
                rw [List.getLast?_eq_getLast _ (by simp)]
                rw [hall _ (List.getLast_mem _)]
              rw [hf, hfilter, hf]
              simp [joinSlash, hlast, List.getLast?_cons_cons, hs]
            · obtain ⟨x, xs, hx⟩ : ∃ x xs,
                  (t :: rs).filter (fun s => s ≠ []) = x :: xs := by
                cases h : (t :: rs).filter (fun s => s ≠ []) with
                | nil => exact absurd h hf
                | cons a b => exact ⟨a, b, rfl⟩
              rw [hfilter, hx, joinSlash_cons2]
              simp [List.getLast?_cons_cons]

/-- Dot-free segment processing: when no segment is `.` or `..`,
`path.Clean`'s stack processing just drops the empty segments. -/
theorem cleanStep_foldl (rooted : Bool) (S : List (List Char))
    (h : ∀ s ∈ S, s ≠ ['.'] ∧ s ≠ ['.', '.']) (acc : List (List Char)) :
    S.foldl (cleanStep rooted) acc = acc ++ S.filter (fun s => s ≠ []) := by
  induction S generalizing acc with
  | nil => simp
  | cons s rest ih =>
      have hs := h s (by simp)
      have hrest : ∀ x ∈ rest, x ≠ ['.'] ∧ x ≠ ['.', '.'] := by
        intro x hx
        exact h x (by simp [hx])
      by_cases hnil : s = []
      · subst hnil
        have hstep : cleanStep rooted acc [] = acc := by
          simp [cleanStep]
        rw [List.foldl_cons, hstep, ih hrest]
        simp
      · have hstep : cleanStep rooted acc s = acc ++ [s] := by
          unfold cleanStep
          rw [if_neg (by simp [hnil, hs.1]), if_neg hs.2]
        rw [List.foldl_cons, hstep, ih hrest]
        simp [List.filter_cons, hnil]

theorem splitSlash_append_slash (l : List Char) :
    splitSlash (l ++ ['/']) = splitSlash l ++ [[]] := by
  induction l with
  | nil => simp [splitSlash]
  | cons c cs ih =>
      by_cases hc : c = '/'
      · subst hc
        show splitSlash ('/' :: (cs ++ ['/'])) = splitSlash ('/' :: cs) ++ [[]]
        simp only [splitSlash, if_pos rfl, ih]
        simp
      · obtain ⟨s0, rest, hS⟩ : ∃ s0 rest, splitSlash cs = s0 :: rest := by
          cases h : splitSlash cs with
          | nil => exact absurd h (splitSlash_ne_nil cs)
          | cons a b => exact ⟨a, b, rfl⟩
        show splitSlash (c :: (cs ++ ['/'])) = splitSlash (c :: cs) ++ [[]]
        simp only [splitSlash, if_neg hc, ih, hS]
        simp

theorem splitSlash_append_nonslash (c : Char) (hc : c ≠ '/') (l : List Char) :
    ∃ s, (splitSlash (l ++ [c])).getLast? = some (s ++ [c]) := by
  induction l with
  | nil =>
      refine ⟨[], ?_⟩
      simp [splitSlash, hc]
  | cons a l ih =>
      obtain ⟨s, hs⟩ := ih
      obtain ⟨x, xs, hx⟩ : ∃ x xs, splitSlash (l ++ [c]) = x :: xs := by
        cases h : splitSlash (l ++ [c]) with
        | nil => exact absurd h (splitSlash_ne_nil _)
        | cons u v => exact ⟨u, v, rfl⟩
      by_cases ha : a = '/'
      · subst ha
        refine ⟨s, ?_⟩
        show (splitSlash ('/' :: (l ++ [c]))).getLast? = some (s ++ [c])
        have h1 : splitSlash ('/' :: (l ++ [c])) = [] :: splitSlash (l ++ [c]) := by
          simp [splitSlash]
        rw [h1, hx, List.getLast?_cons_cons, ← hx, hs]
      · cases xs with
        | nil =>
            refine ⟨a :: s, ?_⟩
            show (splitSlash (a :: (l ++ [c]))).getLast? = some ((a :: s) ++ [c])
            simp only [splitSlash, if_neg ha, hx]
            rw [hx] at hs
            simp at hs
            simp [hs]
        | cons y ys =>
            refine ⟨s, ?_⟩
            show (splitSlash (a :: (l ++ [c]))).getLast? = some (s ++ [c])
            simp only [splitSlash, if_neg ha, hx]
            rw [List.getLast?_cons_cons]
            rw [← List.getLast?_cons_cons (a := x), ← hx, hs]

/-- A path's last character is a slash exactly when its last segment is
empty. -/
theorem lastSlash_iff (l : List Char) (hl : l ≠ []) :
    (splitSlash l).getLast? = some [] ↔ l.getLast? = some '/' := by
  rcases List.eq_nil_or_concat l with rfl | ⟨L, b, rfl⟩
  · exact absurd rfl hl
  · simp only [List.concat_eq_append]
    by_cases hb : b = '/'
    · subst hb
      rw [splitSlash_append_slash]
      simp [List.getLast?_concat]
    · obtain ⟨s, hs⟩ := splitSlash_append_nonslash b hb L
      rw [hs]
      simp [List.getLast?_concat, hb]

theorem renderF_eq_renderT (x : List Char) (hx : x ≠ []) (rest : List (List Char)) :
    renderF (x :: rest) = renderT (x :: rest) := by
  cases rest with
  | nil => rfl
  | cons y ys => rw [renderF_cons2, renderT_cons2, if_neg hx]

theorem joinSlash_ne_nil_of_head (x : List Char) (xs : List (List Char))
    (hx : x ≠ []) : joinSlash (x :: xs) ≠ [] := by
  cases xs with
  | nil => simpa [joinSlash] using hx
  | cons y ys => simp [joinSlash_cons2]

theorem joinSlash_head_ne_slash (c0 : Char) (s0 : List Char)
    (xs : List (List Char)) (hc : c0 ≠ '/') :
    joinSlash ((c0 :: s0) :: xs) ≠ ['/'] := by
  cases xs with
  | nil => simp [joinSlash, List.cons.injEq, hc]
  | cons y ys => simp [joinSlash_cons2, List.cons_append, List.cons.injEq, hc]

/-- Main equivalence for C7: on a dot-free path (no `.` or `..` segment),
the code's zero-element `JoinPath` is exactly the specification's
slash-collapse. -/
theorem joinPath0_eq_collapse (l : List Char)
    (h : ∀ s ∈ splitSlash l, s ≠ ['.'] ∧ s ≠ ['.', '.']) :
    joinPath0List l = collapseAux false l := by
  cases l with
  | nil => rfl
  | cons c0 cs =>
    have hlne : (c0 :: cs) ≠ [] := by simp
    obtain ⟨s0, rest, hS2⟩ : ∃ s0 rest, splitSlash cs = s0 :: rest := by
      cases hx : splitSlash cs with
      | nil => exact absurd hx (splitSlash_ne_nil cs)
      | cons a b => exact ⟨a, b, rfl⟩
    have hjp : joinPath0List (c0 :: cs) =
        (if pathCleanList (c0 :: cs) ≠ ['/'] ∧ (c0 :: cs).getLast? = some '/'
         then pathCleanList (c0 :: cs) ++ ['/'] else pathCleanList (c0 :: cs)) := by
      unfold joinPath0List
      rw [if_neg hlne]
    by_cases hc : c0 = '/'
    · subst hc
      have hsplit : splitSlash ('/' :: cs) = [] :: splitSlash cs := by
        simp [splitSlash]
      have hfold : (splitSlash ('/' :: cs)).foldl (cleanStep true) [] =
          (splitSlash ('/' :: cs)).filter (fun s => s ≠ []) := by
        rw [cleanStep_foldl true _ h []]
        simp
      have hfilterS : (splitSlash ('/' :: cs)).filter (fun s => s ≠ []) =
          (splitSlash cs).filter (fun s => s ≠ []) := by
        rw [hsplit]
        simp [List.filter_cons]
      have hlastS : (splitSlash ('/' :: cs)).getLast? = (splitSlash cs).getLast? := by
        rw [hsplit, hS2, List.getLast?_cons_cons]
      have hcollapse : collapseAux false ('/' :: cs) =
          '/' :: renderT (splitSlash cs) := by
        rw [(collapse_eq_render _).1, hsplit, hS2, renderF_cons2, ← hS2]
        rfl
      have hhead : ('/' :: cs).head? = some '/' := rfl
      have hpc : pathCleanList ('/' :: cs) =
          (if (splitSlash cs).filter (fun s => s ≠ []) = [] then ['/']
           else '/' :: joinSlash ((splitSlash cs).filter (fun s => s ≠ []))) := by
        unfold pathCleanList
        rw [if_neg hlne, if_pos hhead, hfold, hfilterS]
      rw [hcollapse, renderT_formula]
      cases hne : (splitSlash cs).filter (fun s => s ≠ []) with
      | nil =>
          have hpc2 : pathCleanList ('/' :: cs) = ['/'] := by
            rw [hpc, hne, if_pos rfl]
          rw [hjp, hpc2, if_neg (by simp),
            if_neg (by rintro ⟨h1, h2⟩; exact h2 rfl)]
          rfl
      | cons x xs =>
          have hxne : x ≠ [] := by
            have hmem : x ∈ (splitSlash cs).filter (fun s => s ≠ []) := by
              rw [hne]; simp
            simpa using (List.of_mem_filter hmem)
          have hJne : joinSlash (x :: xs) ≠ [] := joinSlash_ne_nil_of_head x xs hxne
          have hCne : ('/' :: joinSlash (x :: xs)) ≠ ['/'] := by
            simp [List.cons.injEq, hJne]
          have hpc2 : pathCleanList ('/' :: cs) = '/' :: joinSlash (x :: xs) := by
            rw [hpc, hne, if_neg (by simp)]
          have hiff := lastSlash_iff ('/' :: cs) hlne
          rw [hlastS] at hiff
          by_cases hlast : ('/' :: cs).getLast? = some '/'
          · have hlseg : (splitSlash cs).getLast? = some [] := hiff.mpr hlast
            rw [hjp, hpc2, if_pos ⟨hCne, hlast⟩,
              if_pos ⟨hlseg, by simp⟩]
            rfl
          · have hlseg : ¬ ((splitSlash cs).getLast? = some []) :=
              fun hx2 => hlast (hiff.mp hx2)
            rw [hjp, hpc2, if_neg (by rintro ⟨h1, h2⟩; exact hlast h2),
              if_neg (by rintro ⟨h1, h2⟩; exact hlseg h1)]
            simp
    · have hsplit : splitSlash (c0 :: cs) = (c0 :: s0) :: rest := by
        simp only [splitSlash, if_neg hc, hS2]
      have hhead : ¬ ((c0 :: cs).head? = some '/') := by
        simp [hc]
      have hfold : (splitSlash (c0 :: cs)).foldl (cleanStep false) [] =
          (splitSlash (c0 :: cs)).filter (fun s => s ≠ []) := by
        rw [cleanStep_foldl false _ h []]
        simp
      have hfilterS : (splitSlash (c0 :: cs)).filter (fun s => s ≠ []) =
          (c0 :: s0) :: rest.filter (fun s => s ≠ []) := by
        rw [hsplit]
        simp [List.filter_cons]
      have hcollapse : collapseAux false (c0 :: cs) =
          renderT (splitSlash (c0 :: cs)) := by
        rw [(collapse_eq_render _).1, hsplit,
          renderF_eq_renderT (c0 :: s0) (by simp) rest]
      have hCne : joinSlash ((c0 :: s0) :: rest.filter (fun s => s ≠ [])) ≠ ['/'] :=
        joinSlash_head_ne_slash c0 s0 _ hc
      have hpc2 : pathCleanList (c0 :: cs) =
          joinSlash ((c0 :: s0) :: rest.filter (fun s => s ≠ [])) := by
        unfold pathCleanList
        rw [if_neg hlne, if_neg hhead, hfold, hfilterS, if_neg (by simp)]
      rw [hcollapse, renderT_formula, hfilterS]
      by_cases hlast : (c0 :: cs).getLast? = some '/'
      · have hlseg : (splitSlash (c0 :: cs)).getLast? = some [] :=
          (lastSlash_iff (c0 :: cs) hlne).mpr hlast
        rw [hjp, hpc2, if_pos ⟨hCne, hlast⟩, if_pos ⟨hlseg, by simp⟩]
      · have hlseg : ¬ ((splitSlash (c0 :: cs)).getLast? = some []) :=
          fun hx2 => hlast ((lastSlash_iff (c0 :: cs) hlne).mp hx2)
        rw [hjp, hpc2, if_neg (by rintro ⟨h1, h2⟩; exact hlast h2),
          if_neg (by rintro ⟨h1, h2⟩; exact hlseg h1)]
        simp

theorem length_one_of_last (l : List Char) (hs : l.getLast? = some '/') :
    1 < l.length ↔ l ≠ ['/'] := by
  match l with
  | [] => simp at hs
  | [c] =>
      simp only [List.getLast?_singleton, Option.some.injEq] at hs
      subst hs
      simp
  | a :: b :: t =>
      constructor
      · intro _
        simp
      · intro _
        simp only [List.length_cons]
        omega

theorem string_eq_root_iff (s : String) : s = "/" ↔ s.data = ['/'] := by
  cases s
  simp [String.ext_iff]

/-- C7 (amended): for every request whose URL path contains no `.` or `..`
segment, the `StripSlashes` middleware forwards the request with every run
of consecutive `/` in the path collapsed to a single `/`, and, when the
trailing-strip flag is set, with the single trailing `/` removed unless the
collapsed path is exactly the root `/`; scheme, host, query and fragment are
left unaltered.  (On paths with `.` or `..` segments the code additionally
resolves those segments — see the counterexample theorem.) -/
theorem stripSlashes_normalizes (stripTrailing : Bool) (next : DoerFunc)
    (r : Request)
    (h : ∀ s ∈ splitSlash r.url.path.data, s ≠ ['.'] ∧ s ≠ ['.', '.']) :
    StripSlashes stripTrailing next r =
      next { r with url := { r.url with path :=
        (if stripTrailing ∧ collapseSlashes r.url.path ≠ "/" ∧
            (collapseSlashes r.url.path).data.getLast? = some '/'
         then ⟨(collapseSlashes r.url.path).data.dropLast⟩
         else collapseSlashes r.url.path) } } := by
  have hjc : r.url.joinPath = { r.url with path := collapseSlashes r.url.path } := by
    unfold URL.joinPath joinPath0 collapseSlashes
    congr 1
    exact congrArg String.mk (joinPath0_eq_collapse _ h)
  simp only [StripSlashes]
  rw [hjc]
  have hg : (stripTrailing = true ∧
        (collapseSlashes r.url.path).length > 1 ∧
        (collapseSlashes r.url.path).data.getLast? = some '/') ↔
      (stripTrailing = true ∧
        collapseSlashes r.url.path ≠ "/" ∧
        (collapseSlashes r.url.path).data.getLast? = some '/') := by
    by_cases hl : (collapseSlashes r.url.path).data.getLast? = some '/'
    · have hlen := length_one_of_last (collapseSlashes r.url.path).data hl
      have hroot := string_eq_root_iff (collapseSlashes r.url.path)
      constructor
      · rintro ⟨h1, h2, h3⟩
        exact ⟨h1, fun he => (hlen.mp h2) (hroot.mp he), h3⟩
      · rintro ⟨h1, h2, h3⟩
        exact ⟨h1, hlen.mpr (fun he => h2 (hroot.mpr he)), h3⟩
    · constructor
      · rintro ⟨h1, h2, h3⟩
        exact absurd h3 hl
      · rintro ⟨h1, h2, h3⟩
        exact absurd h3 hl
  by_cases hG : stripTrailing = true ∧
      collapseSlashes r.url.path ≠ "/" ∧
      (collapseSlashes r.url.path).data.getLast? = some '/'
  · rw [if_pos (hg.mpr hG), if_pos hG]
  · rw [if_neg (fun hx => hG (hg.mp hx)), if_neg hG]

/-- Witness for C7 at the spec's own vector: path `///v1//foo/` with the
trailing-strip flag set. -/
theorem stripSlashes_normalizes_witness :
    (∀ s ∈ splitSlash ("///v1//foo/" : String).data,
      s ≠ ['.'] ∧ s ≠ ['.', '.']) ∧
    StripSlashes true probeDoer
        { sampleReq with url := { sampleReq.url with path := "///v1//foo/" } } =
      probeDoer { sampleReq with url := { sampleReq.url with path :=
        (if (true : Bool) ∧ collapseSlashes "///v1//foo/" ≠ "/" ∧
            (collapseSlashes "///v1//foo/").data.getLast? = some '/'
         then ⟨(collapseSlashes "///v1//foo/").data.dropLast⟩
         else collapseSlashes "///v1//foo/") } } :=
  ⟨by decide, stripSlashes_normalizes true probeDoer
    { sampleReq with url := { sampleReq.url with path := "///v1//foo/" } }
    (by decide)⟩

/-- C7 counterexample: on the path `/a/../b` the middleware does not merely
collapse slash runs — it forwards `/b`, resolving the `..` segment, while
the claim's collapse-only transformation would leave `/a/../b` unchanged. -/
theorem stripSlashes_dotdot_counterexample :
    StripSlashes false probeDoer
        { sampleReq with url := { sampleReq.url with path := "/a/../b" } } =
      .fail (.other "/b") ∧
    collapseSlashes "/a/../b" = "/a/../b" ∧
    ("/b" : String) ≠ "/a/../b" := by
  refine ⟨by decide, by decide, by decide⟩
